import Mathlib

/-!
Verification development for the TaxonomyDatabase repository.

The repository stores a six-level biological taxonomy
(phylum, class, order, family, genus, species) in SQLite.  Each level is a
table with columns `chinese` (primary key), `scientific`, `description`
and, for every level but `phylum`, `parent` (a foreign key to the
enclosing level's `chinese` column, enforced via `pragma foreign_keys = 1`).
Two triggers per non-leaf level propagate renames of `chinese` to the
children's `parent` column and cascade deletions to the children
(`commands.py`: `create_trigger_update_chinese`, `create_trigger_delete_taxon`).

This file shallowly embeds the database state (`DB`: one list of rows per
level) and the operations of the `Taxonomy` class (`taxonomy/taxonomy.py`),
including trigger firing, the primary-key and foreign-key checks performed
by the storage layer, and the upward ancestry walk
`retrieve_hierarchical_parents_by_child`.  A second embedding of the walk
(`walkLoopTD` below) follows the variant in `TaxonomyDatabase/taxonomy.py`,
which guards against an unresolvable parent.
-/

namespace TaxonomyDB

/-- The six hierarchy levels, root first, mirroring
`self._taxa = ["phylum", "class", "order", "family", "genus", "species"]`. -/
inductive Taxon where
  | phylum
  | class_
  | order
  | family
  | genus
  | species
deriving DecidableEq, Repr

/-- `_taxa.index t` : the position of a level in the `_taxa` list. -/
def Taxon.idx : Taxon → Nat
  | .phylum => 0
  | .class_ => 1
  | .order => 2
  | .family => 3
  | .genus => 4
  | .species => 5

/-- `_taxa[i]` for `0 ≤ i ≤ 5` (indices above 5 do not occur). -/
def taxonOfIdx : Nat → Taxon
  | 0 => .phylum
  | 1 => .class_
  | 2 => .order
  | 3 => .family
  | 4 => .genus
  | _ => .species

/-- `_taxa[idx - 1]` with Python's wrap-around at `-1`
(used by `retrieve_data_by_child`). -/
def prevTaxon : Taxon → Taxon
  | .phylum => .species
  | .class_ => .phylum
  | .order => .class_
  | .family => .order
  | .genus => .family
  | .species => .genus

/-- The immediately subordinate level, `none` for the leaf level. -/
def childTaxon : Taxon → Option Taxon
  | .phylum => some .class_
  | .class_ => some .order
  | .order => some .family
  | .family => some .genus
  | .genus => some .species
  | .species => none

/-- All levels strictly below the given one, in hierarchy order; these are
the tables visited, in order, by the cascading triggers installed below a
level. -/
def taxaBelow : Taxon → List Taxon
  | .phylum => [.class_, .order, .family, .genus, .species]
  | .class_ => [.order, .family, .genus, .species]
  | .order => [.family, .genus, .species]
  | .family => [.genus, .species]
  | .genus => [.species]
  | .species => []

/-- One table row.  `parent` is `none` exactly on the `phylum` table, which
has no `parent` column; every other table stores a `text NOT NULL` parent. -/
structure Rec where
  chinese : String
  scientific : String
  description : String
  parent : Option String
deriving DecidableEq, Repr

/-- The database: one table per level, rows in storage (insertion) order. -/
structure DB where
  phylum : List Rec
  class_ : List Rec
  order : List Rec
  family : List Rec
  genus : List Rec
  species : List Rec
deriving DecidableEq, Repr

/-- The empty database produced by first-time initialization. -/
def emptyDB : DB := ⟨[], [], [], [], [], []⟩

/-- The rows of the table for a level. -/
def DB.table (db : DB) : Taxon → List Rec
  | .phylum => db.phylum
  | .class_ => db.class_
  | .order => db.order
  | .family => db.family
  | .genus => db.genus
  | .species => db.species

/-- Replace the table of a level. -/
def DB.setTable (db : DB) : Taxon → List Rec → DB
  | .phylum, l => { db with phylum := l }
  | .class_, l => { db with class_ := l }
  | .order, l => { db with order := l }
  | .family, l => { db with family := l }
  | .genus, l => { db with genus := l }
  | .species, l => { db with species := l }

/-- How Python's f-string renders the `parent` argument into the SQL text:
a string is spliced verbatim, `None` becomes the four characters `None`. -/
def parentToStr : Option String → String
  | some p => p
  | none => "None"

/-- Errors surfaced by the operations: the `ValueError` raised by
`create_data` for a root-level parent, and the storage layer's UNIQUE
(primary key) and FOREIGN KEY (referential integrity) failures. -/
inductive DBError where
  | invalidArgument
  | primaryKeyViolation
  | referentialIntegrityViolation
deriving DecidableEq, Repr

/-- `Taxonomy.create_data (taxon, chinese, scientific, description, parent)`.
Raises `ValueError` when `taxon` is the root level and `parent` is not
`None`; otherwise builds the SQL `insert` of
`'{chinese}', '{scientific}', '{description}'` (plus `'{parent}'` at
non-root levels, the f-string rendering `None` as the literal text `None`)
and runs it.  The storage layer rejects a duplicate `chinese` (primary
key) and, at non-root levels, a parent value absent from the enclosing
table (`pragma foreign_keys = 1`). -/
def createData (db : DB) (taxon : Taxon) (chinese scientific description : String)
    (parent : Option String) : Except DBError DB :=
  if taxon = Taxon.phylum ∧ parent ≠ none then
    .error .invalidArgument
  else
    let row : Rec :=
      if taxon = Taxon.phylum then ⟨chinese, scientific, description, none⟩
      else ⟨chinese, scientific, description, some (parentToStr parent)⟩
    let tbl := db.table taxon
    if tbl.any (fun r => r.chinese == chinese) then
      .error .primaryKeyViolation
    else if taxon ≠ Taxon.phylum ∧
        ¬ (db.table (prevTaxon taxon)).any (fun r => r.chinese == parentToStr parent) then
      .error .referentialIntegrityViolation
    else
      .ok (db.setTable taxon (tbl ++ [row]))

/-- The `where parent = …` comparison performed by the trigger bodies;
SQL equality against a NULL parent never matches (a `phylum` row, which
has no parent column, can never match). -/
def parentMatches (names : List String) (r : Rec) : Bool :=
  match r.parent with
  | some p => names.contains p
  | none => false

/-- Firing of the `delete_{taxon}` triggers: at each subordinate level in
turn, `delete from "{child}" where parent = old.chinese` runs for every
row just deleted at the enclosing level, and the rows it removes fire the
next level's trigger in the same way. -/
def cascadeList : List Taxon → List String → DB → DB
  | [], _, db => db
  | tc :: rest, names, db =>
      cascadeList rest
        (((db.table tc).filter (parentMatches names)).map (fun r => r.chinese))
        (db.setTable tc ((db.table tc).filter (fun r => ! parentMatches names r)))

/-- `Taxonomy.delete_data (taxon, chinese)` :
`delete from "{taxon}" where chinese = '{chinese}';` followed by the
cascading delete triggers on all subordinate levels. -/
def deleteData (db : DB) (taxon : Taxon) (chinese : String) : DB :=
  let removed := (db.table taxon).filter (fun r => r.chinese == chinese)
  cascadeList (taxaBelow taxon) (removed.map (fun r => r.chinese))
    (db.setTable taxon ((db.table taxon).filter (fun r => ! (r.chinese == chinese))))

/-- `Taxonomy.retrieve_data_by_taxon (taxon)` : `select * from "{taxon}";`,
all rows in storage order. -/
def retrieveDataByTaxon (db : DB) (taxon : Taxon) : List Rec :=
  db.table taxon

/-- `Taxonomy.retrieve_data_by_chinese (taxon, chinese)` :
`select * from "{taxon}" where chinese = '{chinese}';` with `fetchone`
(first matching row, if any). -/
def retrieveDataByChinese (db : DB) (taxon : Taxon) (chinese : String) : Option Rec :=
  (db.table taxon).find? (fun r => r.chinese == chinese)

/-- `Taxonomy.retrieve_data_by_parent (taxon, parent_chinese)` : for the
root level it ignores the parent argument and delegates to
`retrieve_data_by_taxon("phylum")`; otherwise
`select * from "{taxon}" where parent = '{parent_chinese}';` with
`fetchall` (the f-string renders a `None` argument as the text `None`). -/
def retrieveDataByParent (db : DB) (taxon : Taxon) (parentChinese : Option String) :
    List Rec :=
  if taxon = Taxon.phylum then retrieveDataByTaxon db Taxon.phylum
  else (db.table taxon).filter (fun r => r.parent == some (parentToStr parentChinese))

/-- `Taxonomy.retrieve_data_by_child (child_taxon, child_chinese)` :
`select * from "{_taxa[idx-1]}" where chinese = (select parent from
"{child_taxon}" where chinese = '{child_chinese}')` with `fetchone`; the
scalar subquery takes the first matching child row's parent, and an empty
subquery makes the outer query match nothing. -/
def retrieveDataByChild (db : DB) (childTaxon : Taxon) (childChinese : String) :
    Option Rec :=
  match (db.table childTaxon).find? (fun r => r.chinese == childChinese) with
  | none => none
  | some r =>
      match r.parent with
      | none => none
      | some p => (db.table (prevTaxon childTaxon)).find? (fun r2 => r2.chinese == p)

/-- The upward loop of `retrieve_hierarchical_parents_by_child` in
`taxonomy/taxonomy.py`: while `idx != 0`, look up the parent of the
current `(child_taxon, child_chinese)`, prepend it to the accumulated
list, and move one level up.  A `None` parent makes the body's
`parent[0]` raise `TypeError`, modelled here as `none`. -/
def walkLoop (db : DB) : Nat → Taxon → String → List (Option Rec) →
    Option (List (Option Rec))
  | 0, _, _, parents => some parents
  | n + 1, ct, cc, parents =>
      match retrieveDataByChild db ct cc with
      | none => none
      | some parent => walkLoop db n (taxonOfIdx n) parent.chinese (some parent :: parents)

/-- `retrieve_hierarchical_parents_by_child` before the `names_only`
post-processing: the optional leaf row (which may be `None` inside the
list) followed by the upward walk; `none` as the overall result models
the `TypeError` raised on an unresolvable parent. -/
def hierFull (db : DB) (childTaxon : Taxon) (childChinese : String)
    (returnChild : Bool) : Option (List (Option Rec)) :=
  walkLoop db childTaxon.idx childTaxon childChinese
    (if returnChild then [retrieveDataByChinese db childTaxon childChinese] else [])

/-- The `names_only` post-processing: `item[:2]` on every collected tuple,
i.e. the `(chinese, scientific)` pair; slicing a `None` item raises
`TypeError`, modelled as `none`. -/
def sliceNames : List (Option Rec) → Option (List (String × String))
  | [] => some []
  | none :: _ => none
  | some r :: rest => (sliceNames rest).map (fun l => (r.chinese, r.scientific) :: l)

/-- `retrieve_hierarchical_parents_by_child (…, names_only=True)`. -/
def hierNames (db : DB) (childTaxon : Taxon) (childChinese : String)
    (returnChild : Bool) : Option (List (String × String)) :=
  (hierFull db childTaxon childChinese returnChild).bind sliceNames

/-- The upward loop as written in `TaxonomyDatabase/taxonomy.py`, the
variant that returns the empty list as soon as a parent is unresolvable
(`if parent is None: return []`). -/
def walkLoopTD (db : DB) : Nat → Taxon → String → List (Option Rec) →
    List (Option Rec)
  | 0, _, _, parents => parents
  | n + 1, ct, cc, parents =>
      match retrieveDataByChild db ct cc with
      | none => []
      | some parent => walkLoopTD db n (taxonOfIdx n) parent.chinese (some parent :: parents)

/-- `retrieve_hierarchical_parents_by_child` of
`TaxonomyDatabase/taxonomy.py` before its `names_only` post-processing. -/
def hierFullTD (db : DB) (childTaxon : Taxon) (childChinese : String)
    (returnChild : Bool) : List (Option Rec) :=
  walkLoopTD db childTaxon.idx childTaxon childChinese
    (if returnChild then [retrieveDataByChinese db childTaxon childChinese] else [])

/-- Firing of the `update_{taxon}_chinese` triggers: after any update on a
level's table, each updated row runs
`update "{child}" set parent = new.chinese where parent = old.chinese` on
the subordinate table, whose updated rows (their own `chinese` unchanged)
fire the next level's trigger with `old.chinese = new.chinese`. -/
def renameCascade : List Taxon → List (String × String) → DB → DB
  | [], _, db => db
  | tc :: rest, pairs, db =>
      let tbl := db.table tc
      let affected := tbl.filter (fun r => pairs.any (fun p => r.parent == some p.1))
      let tbl2 := tbl.map (fun r =>
        match pairs.find? (fun p => r.parent == some p.1) with
        | some p => { r with parent := some p.2 }
        | none => r)
      renameCascade rest (affected.map (fun r => (r.chinese, r.chinese)))
        (db.setTable tc tbl2)

/-- `Taxonomy.update_chinese (taxon, chinese, new_chinese)` :
`update "{taxon}" set chinese = '{new_chinese}' where chinese =
'{chinese}';` — the storage layer rejects the update if it would
duplicate an existing primary key — followed by the update triggers,
which rewrite the direct children's `parent` column. -/
def updateChinese (db : DB) (taxon : Taxon) (chinese newChinese : String) :
    Except DBError DB :=
  let tbl := db.table taxon
  if (tbl.any (fun r => r.chinese == chinese)) ∧ chinese ≠ newChinese ∧
      (tbl.any (fun r => r.chinese == newChinese)) then
    .error .primaryKeyViolation
  else
    let updated := tbl.filter (fun r => r.chinese == chinese)
    let tbl2 := tbl.map (fun r =>
      if r.chinese == chinese then { r with chinese := newChinese } else r)
    .ok (renameCascade (taxaBelow taxon) (updated.map (fun r => (r.chinese, newChinese)))
      (db.setTable taxon tbl2))

/-- `Taxonomy.update_scientific (taxon, chinese, new_scientific)` :
`update "{taxon}" set scientific = '{new_scientific}' where chinese =
'{chinese}';` — the `update_{taxon}_chinese` trigger still fires for each
updated row, but with `new.chinese = old.chinese`. -/
def updateScientific (db : DB) (taxon : Taxon) (chinese newScientific : String) : DB :=
  let tbl := db.table taxon
  let updated := tbl.filter (fun r => r.chinese == chinese)
  renameCascade (taxaBelow taxon) (updated.map (fun r => (r.chinese, r.chinese)))
    (db.setTable taxon (tbl.map (fun r =>
      if r.chinese == chinese then { r with scientific := newScientific } else r)))

/-- A connection to the store: the committed on-disk contents `saved` and
the state `cur` seen through the ambient transaction. -/
structure Store where
  saved : DB
  cur : DB
deriving DecidableEq, Repr

/-- `Taxonomy.__init__`: opening a location that holds a committed
database loads it; a missing file yields the freshly initialized empty
store (tables and triggers created, then committed). -/
def openStore : Option DB → Store
  | some d => { saved := d, cur := d }
  | none => { saved := emptyDB, cur := emptyDB }

/-- `Taxonomy.commit`: make the transaction's state durable. -/
def Store.commitStore (s : Store) : Store :=
  { saved := s.cur, cur := s.cur }

/-- `Taxonomy.rollback`: discard uncommitted changes. -/
def Store.rollbackStore (s : Store) : Store :=
  { s with cur := s.saved }

/-- `Taxonomy.close`: release the connection; what persists at the
location is the last committed state. -/
def Store.closeStore (s : Store) : Option DB :=
  some s.saved

/-- Every table's `chinese` column is duplicate-free — the primary-key
invariant the storage layer maintains. -/
def UniqueNames (db : DB) : Prop :=
  (db.phylum.map Rec.chinese).Nodup ∧ (db.class_.map Rec.chinese).Nodup ∧
  (db.order.map Rec.chinese).Nodup ∧ (db.family.map Rec.chinese).Nodup ∧
  (db.genus.map Rec.chinese).Nodup ∧ (db.species.map Rec.chinese).Nodup

instance : DecidablePred UniqueNames := fun db => by
  unfold UniqueNames; infer_instance

/-- `Descendant db t c t' n'` : in the state `db`, the name `n'` at level
`t'` belongs to the lineage of the record named `c` at level `t` — either
it is that record's own name at its own level, or it is the name of an
existing row whose `parent` is a lineage name at the enclosing level
(which itself names an existing row there). -/
inductive Descendant (db : DB) (t : Taxon) (c : String) : Taxon → String → Prop where
  | refl : Descendant db t c t c
  | step {t' tc : Taxon} {n' : String} {r : Rec} :
      Descendant db t c t' n' →
      childTaxon t' = some tc →
      (∃ r0 ∈ db.table t', r0.chinese = n') →
      r ∈ db.table tc →
      r.parent = some n' →
      Descendant db t c tc r.chinese

theorem table_setTable_self (db : DB) (t : Taxon) (l : List Rec) :
    (db.setTable t l).table t = l := by
  cases t <;> rfl

theorem table_setTable_ne (db : DB) {t u : Taxon} (l : List Rec) (h : u ≠ t) :
    (db.setTable t l).table u = db.table u := by
  cases t <;> cases u <;> first | exact (h rfl).elim | rfl

theorem self_not_mem_taxaBelow (t : Taxon) : t ∉ taxaBelow t := by
  cases t <;> decide

theorem taxaBelow_nodup (t : Taxon) : (taxaBelow t).Nodup := by
  cases t <;> decide

theorem taxaBelow_eq_cons {t tc : Taxon} (h : childTaxon t = some tc) :
    taxaBelow t = tc :: taxaBelow tc := by
  cases t <;> simp_all [childTaxon] <;> subst h <;> rfl

theorem childTaxon_ne_self {t tc : Taxon} (h : childTaxon t = some tc) : tc ≠ t := by
  cases t <;> simp_all [childTaxon] <;> subst h <;> decide

theorem childTaxon_ne_phylum {t tc : Taxon} (h : childTaxon t = some tc) :
    tc ≠ Taxon.phylum := by
  cases t <;> simp_all [childTaxon] <;> subst h <;> decide

/-- Whether a list of levels is consecutively linked by `childTaxon` and
runs all the way down to the leaf level. -/
def chainClosed : List Taxon → Bool
  | [] => true
  | [a] => (childTaxon a).isNone
  | a :: b :: rest => childTaxon a == some b && chainClosed (b :: rest)

theorem chainClosed_taxaBelow (t : Taxon) : chainClosed (taxaBelow t) = true := by
  cases t <;> rfl

theorem chainClosed_tail {a : Taxon} {rest : List Taxon}
    (h : chainClosed (a :: rest) = true) : chainClosed rest = true := by
  cases rest with
  | nil => rfl
  | cons b r =>
      simp only [chainClosed, Bool.and_eq_true] at h
      exact h.2

theorem chainClosed_closure {l : List Taxon} (hc : chainClosed l = true)
    {t' tc : Taxon} (ht : t' ∈ l) (hchild : childTaxon t' = some tc) : tc ∈ l := by
  induction l with
  | nil => cases ht
  | cons a rest ih =>
      rcases List.mem_cons.mp ht with h | h
      · subst h
        cases rest with
        | nil =>
            simp [chainClosed, hchild] at hc
        | cons b r =>
            simp only [chainClosed, Bool.and_eq_true] at hc
            have hb := hc.1
            have : some b = some tc := by
              have := eq_of_beq hb
              rw [← this, hchild]
            exact List.mem_cons.mpr (Or.inr (by
              cases this
              exact List.mem_cons_self _ _))
      · exact List.mem_cons.mpr (Or.inr (ih (chainClosed_tail hc) h))

theorem uniqueNames_iff {db : DB} :
    UniqueNames db ↔ ∀ t, ((db.table t).map Rec.chinese).Nodup := by
  constructor
  · rintro ⟨h1, h2, h3, h4, h5, h6⟩ t
    cases t <;> assumption
  · intro h
    exact ⟨h .phylum, h .class_, h .order, h .family, h .genus, h .species⟩

theorem uniqueNames_setTable {db : DB} (h : UniqueNames db) (t : Taxon)
    {l : List Rec} (hl : (l.map Rec.chinese).Nodup) :
    UniqueNames (db.setTable t l) := by
  rw [uniqueNames_iff]
  intro u
  by_cases hu : u = t
  · subst hu; rw [table_setTable_self]; exact hl
  · rw [table_setTable_ne _ _ hu]; exact (uniqueNames_iff.mp h) u

theorem nodup_map_filter {l : List Rec} (p : Rec → Bool)
    (h : (l.map Rec.chinese).Nodup) : ((l.filter p).map Rec.chinese).Nodup :=
  h.sublist ((l.filter_sublist (p := p)).map Rec.chinese)

theorem chinese_inj_of_nodup {l : List Rec} (h : (l.map Rec.chinese).Nodup) :
    ∀ r1 ∈ l, ∀ r2 ∈ l, r1.chinese = r2.chinese → r1 = r2 := by
  intro r1 h1 r2 h2 he
  exact List.inj_on_of_nodup_map h h1 h2 he

/-- A well-formed `parent` argument for `create_data`: absent at the root
level, a string at every other level. -/
def parentWellFormed (t : Taxon) (p : Option String) : Prop :=
  match t with
  | .phylum => p = none
  | _ => ∃ pn, p = some pn

/-- Sample rows forming one complete six-level chain. -/
def pRow : Rec := ⟨"p", "P", "dp", none⟩

def cRow : Rec := ⟨"c", "C", "dc", some "p"⟩

def oRow : Rec := ⟨"o", "O", "do", some "c"⟩

def fRow : Rec := ⟨"f", "F", "df", some "o"⟩

def gRow : Rec := ⟨"g", "G", "dg", some "f"⟩

def sRow : Rec := ⟨"s", "S", "ds", some "g"⟩

def sRow2 : Rec := ⟨"s2", "S2", "ds2", some "g"⟩

/-- A database holding one full chain plus a second species leaf. -/
def dbChain : DB := ⟨[pRow], [cRow], [oRow], [fRow], [gRow], [sRow, sRow2]⟩

/-- A database whose root level contains a record literally named `None`. -/
def dbNone : DB := ⟨[⟨"None", "N", "dn", none⟩], [], [], [], [], []⟩

theorem find?_append_of_all_neg {l1 l2 : List Rec} {p : Rec → Bool}
    (h : ∀ r ∈ l1, p r = false) : (l1 ++ l2).find? p = l2.find? p := by
  induction l1 with
  | nil => rfl
  | cons a l1 ih =>
      rw [List.cons_append, List.find?_cons_of_neg, ih (fun r hr => h r (by simp [hr]))]
      simp [h a (by simp)]

/-- C6: at a non-root level, creating a (fresh-named) record whose parent
name does not exist at the immediately enclosing level fails with the
storage layer's referential-integrity error, enforcement being active on
the connection (`pragma foreign_keys = 1`). -/
theorem create_missing_parent_fails (db : DB) (t : Taxon) (c sc d pn : String)
    (ht : t ≠ Taxon.phylum)
    (hfresh : ∀ r ∈ db.table t, r.chinese ≠ c)
    (hpar : ∀ r ∈ db.table (prevTaxon t), r.chinese ≠ pn) :
    createData db t c sc d (some pn) = .error .referentialIntegrityViolation := by
  have hB : (db.table t).any (fun r => r.chinese == c) = false := by
    simp only [List.any_eq_false, beq_iff_eq]
    exact hfresh
  have hC : (db.table (prevTaxon t)).any
      (fun r => r.chinese == parentToStr (some pn)) = false := by
    simp only [List.any_eq_false, beq_iff_eq, parentToStr]
    exact hpar
  simp [createData, ht, hB, hC]

/-- Witness for C6 at a concrete store and arguments. -/
theorem create_missing_parent_fails_witness :
    createData dbChain Taxon.class_ "c9" "C9" "d" (some "zz") =
      .error .referentialIntegrityViolation :=
  create_missing_parent_fails dbChain Taxon.class_ "c9" "C9" "d" "zz"
    (by decide) (by decide) (by decide)

/-- C7: a root-level create with a present parent argument raises
`InvalidArgument` and inserts nothing; with the parent absent the insert
proceeds and appends the row (provided the name is fresh, the primary-key
constraint being the only remaining check at the root level). -/
theorem create_root_parent_rules (db : DB) (c sc d : String) :
    (∀ ps : String,
      createData db Taxon.phylum c sc d (some ps) = .error .invalidArgument) ∧
    ((∀ r ∈ db.table Taxon.phylum, r.chinese ≠ c) →
      ∃ db', createData db Taxon.phylum c sc d none = .ok db' ∧
        db'.table Taxon.phylum = db.table Taxon.phylum ++ [⟨c, sc, d, none⟩]) := by
  constructor
  · intro ps
    simp [createData]
  · intro hfresh
    have hB : (db.table Taxon.phylum).any (fun r => r.chinese == c) = false := by
      simp only [List.any_eq_false, beq_iff_eq]
      exact hfresh
    refine ⟨db.setTable Taxon.phylum (db.table Taxon.phylum ++ [⟨c, sc, d, none⟩]),
      ?_, table_setTable_self _ _ _⟩
    simp [createData, hB]

/-- Witness for C7 at a concrete store. -/
theorem create_root_parent_rules_witness :
    createData dbChain Taxon.phylum "p2" "P2" "d" (some "x") =
      .error .invalidArgument ∧
    ∃ db', createData dbChain Taxon.phylum "p2" "P2" "d" none = .ok db' ∧
      db'.table Taxon.phylum = dbChain.table Taxon.phylum ++ [⟨"p2", "P2", "d", none⟩] :=
  ⟨(create_root_parent_rules dbChain "p2" "P2" "d").1 "x",
   (create_root_parent_rules dbChain "p2" "P2" "d").2 (by decide)⟩

/-- C8: retrieve-by-parent at the root level returns the whole root table
whatever the parent argument is; at any other level it returns exactly the
rows whose `parent` column equals the given name, in storage order. -/
theorem retrieve_by_parent_spec (db : DB) :
    (∀ p : Option String,
      retrieveDataByParent db Taxon.phylum p = retrieveDataByTaxon db Taxon.phylum) ∧
    (∀ t : Taxon, t ≠ Taxon.phylum → ∀ pn : String,
      retrieveDataByParent db t (some pn) =
        (db.table t).filter (fun r => r.parent == some pn)) := by
  constructor
  · intro p
    simp [retrieveDataByParent]
  · intro t ht pn
    simp [retrieveDataByParent, ht, parentToStr]

/-- Witness for C8 at a concrete store. -/
theorem retrieve_by_parent_spec_witness :
    retrieveDataByParent dbChain Taxon.phylum (some "zz") =
      retrieveDataByTaxon dbChain Taxon.phylum ∧
    retrieveDataByParent dbChain Taxon.species (some "g") =
      (dbChain.table Taxon.species).filter (fun r => r.parent == some "g") :=
  ⟨(retrieve_by_parent_spec dbChain).1 (some "zz"),
   (retrieve_by_parent_spec dbChain).2 Taxon.species (by decide) "g"⟩

/-- C10: at a non-root level `create_data` accepts `parent=None` — the
validation layer only rejects a present parent at the root — and the
f-string writes the literal text `None` into the SQL, so the insert
succeeds exactly when a record named `None` exists at the enclosing
level, and otherwise fails with the referential-integrity error. -/
theorem create_none_parent_literal (db : DB) (t : Taxon) (c sc d : String)
    (ht : t ≠ Taxon.phylum)
    (hfresh : ∀ r ∈ db.table t, r.chinese ≠ c) :
    ((∀ r ∈ db.table (prevTaxon t), r.chinese ≠ "None") →
      createData db t c sc d none = .error .referentialIntegrityViolation) ∧
    ((∃ r ∈ db.table (prevTaxon t), r.chinese = "None") →
      ∃ db', createData db t c sc d none = .ok db' ∧
        db'.table t = db.table t ++ [⟨c, sc, d, some "None"⟩]) := by
  have hB : (db.table t).any (fun r => r.chinese == c) = false := by
    simp only [List.any_eq_false, beq_iff_eq]
    exact hfresh
  constructor
  · intro hno
    have hC : (db.table (prevTaxon t)).any
        (fun r => r.chinese == parentToStr none) = false := by
      simp only [List.any_eq_false, beq_iff_eq, parentToStr]
      exact hno
    simp [createData, ht, hB, hC]
  · intro hyes
    have hC : (db.table (prevTaxon t)).any
        (fun r => r.chinese == parentToStr none) = true := by
      simp only [List.any_eq_true, beq_iff_eq, parentToStr]
      exact hyes
    refine ⟨db.setTable t ((db.table t) ++ [⟨c, sc, d, some (parentToStr none)⟩]),
      ?_, ?_⟩
    · simp [createData, ht, hB, hC]
    · rw [table_setTable_self]
      simp [parentToStr]

/-- Witness for C10: both the failing and the succeeding situation. -/
theorem create_none_parent_literal_witness :
    createData dbChain Taxon.class_ "c9" "C9" "d" none =
      .error .referentialIntegrityViolation ∧
    ∃ db', createData dbNone Taxon.class_ "c9" "C9" "d" none = .ok db' ∧
      db'.table Taxon.class_ = dbNone.table Taxon.class_ ++ [⟨"c9", "C9", "d", some "None"⟩] :=
  ⟨(create_none_parent_literal dbChain Taxon.class_ "c9" "C9" "d" (by decide)
      (by decide)).1 (by decide),
   (create_none_parent_literal dbNone Taxon.class_ "c9" "C9" "d" (by decide)
      (by decide)).2 (by decide)⟩

/-- C5: a valid create (well-formed parent argument) followed by commit,
close and reopen of the store at the same location: retrieving by exact
name at that level yields exactly the inserted attributes. -/
theorem create_commit_reopen_roundtrip (s : Store) (t : Taxon)
    (c sc d : String) (p : Option String) (db' : DB)
    (hwf : parentWellFormed t p)
    (hok : createData s.cur t c sc d p = .ok db') :
    retrieveDataByChinese
      (openStore (Store.closeStore (Store.commitStore { s with cur := db' }))).cur
      t c = some ⟨c, sc, d, p⟩ := by
  have hgoal : retrieveDataByChinese db' t c = some ⟨c, sc, d, p⟩ := by
    simp only [createData] at hok
    by_cases hA : (t = Taxon.phylum ∧ p ≠ none)
    · simp [hA] at hok
    · rw [if_neg hA] at hok
      by_cases hB : (s.cur.table t).any (fun r => r.chinese == c)
      · simp [hB] at hok
      · rw [if_neg (by simp [hB] : ¬ ((s.cur.table t).any (fun r => r.chinese == c) = true))] at hok
        by_cases hC : (t ≠ Taxon.phylum ∧
            ¬ (s.cur.table (prevTaxon t)).any (fun r => r.chinese == parentToStr p))
        · simp [hC] at hok
        · rw [if_neg hC] at hok
          have hdb : db' = s.cur.setTable t
              ((s.cur.table t) ++
                [if t = Taxon.phylum then (⟨c, sc, d, none⟩ : Rec)
                 else ⟨c, sc, d, some (parentToStr p)⟩]) := by
            cases hok
            rfl
          have hfresh : ∀ r ∈ s.cur.table t, (r.chinese == c) = false := by
            simpa [List.any_eq_false] using hB
          rw [hdb, retrieveDataByChinese, table_setTable_self,
            find?_append_of_all_neg hfresh]
          by_cases hp : t = Taxon.phylum
          · have hpn : p = none := by
              unfold parentWellFormed at hwf
              cases t <;> simp_all
            simp [hp, hpn, List.find?]
          · obtain ⟨pn, hpn⟩ : ∃ pn, p = some pn := by
              unfold parentWellFormed at hwf
              cases t <;> simp_all
            simp [hp, hpn, List.find?, parentToStr]
  simpa [openStore, Store.closeStore, Store.commitStore] using hgoal

/-- Witness for C5 at a concrete store and record. -/
theorem create_commit_reopen_roundtrip_witness :
    retrieveDataByChinese
      (openStore (Store.closeStore (Store.commitStore
        { saved := dbChain, cur :=
            dbChain.setTable Taxon.class_
              (dbChain.table Taxon.class_ ++ [⟨"c9", "C9", "d", some "p"⟩]) }))).cur
      Taxon.class_ "c9" = some ⟨"c9", "C9", "d", some "p"⟩ :=
  create_commit_reopen_roundtrip ⟨dbChain, dbChain⟩ Taxon.class_ "c9" "C9" "d"
    (some "p") _ ⟨"p", rfl⟩ (by rfl)

theorem setTable_table_self (db : DB) (t : Taxon) :
    db.setTable t (db.table t) = db := by
  cases t <;> rfl

theorem setParent_self {r : Rec} {p : String} (h : r.parent = some p) :
    { r with parent := some p } = r := by
  cases r
  simp_all

/-- An update statement whose per-row `new.chinese` equals `old.chinese`
(as fired by `update_scientific`, and by the trigger bodies themselves on
the grandchildren) leaves every table unchanged. -/
theorem renameCascade_id (l : List Taxon) (pairs : List (String × String))
    (hid : ∀ q ∈ pairs, q.1 = q.2) (db : DB) : renameCascade l pairs db = db := by
  induction l generalizing pairs db with
  | nil => rfl
  | cons tc rest ih =>
      have htbl : (db.table tc).map (fun r =>
          match pairs.find? (fun p => r.parent == some p.1) with
          | some p => { r with parent := some p.2 }
          | none => r) = db.table tc := by
        have : ∀ r ∈ db.table tc, (fun r =>
            match pairs.find? (fun p => r.parent == some p.1) with
            | some p => { r with parent := some p.2 }
            | none => r) r = id r := by
          intro r _
          cases hfind : pairs.find? (fun p => r.parent == some p.1) with
          | none => simp [hfind]
          | some q =>
              have hq1 := List.find?_some hfind
              have hq2 : q.1 = q.2 := hid q (List.mem_of_find?_eq_some hfind)
              simp only [hfind, id]
              rw [← hq2]
              exact setParent_self (by simpa using hq1)
        rw [List.map_congr_left this, List.map_id]
      rw [renameCascade, htbl, setTable_table_self]
      exact ih _ (by
        intro q hq
        obtain ⟨r, _, rfl⟩ := List.mem_map.mp hq
        rfl) db

/-- C9: `update_scientific` rewrites exactly the `scientific` attribute of
the rows with the given name at the given level; every other table —
including the children's `parent` column, although the update trigger
does fire — is unchanged. -/
theorem update_scientific_frame (db : DB) (t : Taxon) (c ns : String) :
    ((updateScientific db t c ns).table t =
      (db.table t).map (fun r =>
        if r.chinese == c then { r with scientific := ns } else r)) ∧
    (∀ u : Taxon, u ≠ t → (updateScientific db t c ns).table u = db.table u) := by
  have hid : updateScientific db t c ns =
      db.setTable t ((db.table t).map (fun r =>
        if r.chinese == c then { r with scientific := ns } else r)) := by
    rw [updateScientific]
    exact renameCascade_id _ _ (by
      intro q hq
      obtain ⟨r, _, rfl⟩ := List.mem_map.mp hq
      rfl) _
  constructor
  · rw [hid, table_setTable_self]
  · intro u hu
    rw [hid, table_setTable_ne _ _ hu]

/-- Witness for C9 at a concrete store: the genus row's scientific name
changes, its other attributes and the species children stay intact. -/
theorem update_scientific_frame_witness :
    (updateScientific dbChain Taxon.genus "g" "GG").table Taxon.genus =
      (dbChain.table Taxon.genus).map (fun r =>
        if r.chinese == "g" then { r with scientific := "GG" } else r) ∧
    (updateScientific dbChain Taxon.genus "g" "GG").table Taxon.species =
      dbChain.table Taxon.species :=
  ⟨(update_scientific_frame dbChain Taxon.genus "g" "GG").1,
   (update_scientific_frame dbChain Taxon.genus "g" "GG").2 Taxon.species (by decide)⟩

theorem find?_const_pairs {pairs : List (String × String)} {old new : String}
    (hne : pairs ≠ []) (hall : ∀ q ∈ pairs, q = (old, new)) (r : Rec) :
    pairs.find? (fun p => r.parent == some p.1) =
      if r.parent == some old then some (old, new) else none := by
  obtain ⟨q, rest, rfl⟩ : ∃ q rest, pairs = q :: rest := by
    cases pairs with
    | nil => exact absurd rfl hne
    | cons q rest => exact ⟨q, rest, rfl⟩
  have hq : q = (old, new) := hall q (List.mem_cons_self _ _)
  by_cases hp : (r.parent == some old) = true
  · rw [List.find?_cons_of_pos _ (by simp [hq, hp])]
    simp [hq, hp]
  · rw [List.find?_cons_of_neg _ (by simp [hq, hp]), List.find?_eq_none.mpr]
    · simp [hp]
    · intro x hx
      have := hall x (List.mem_cons_of_mem _ hx)
      simp [this, hp]

theorem filter_new_of_map {l : List Rec} {old new : String} (hne : old ≠ new)
    (hfr : ∀ r ∈ l, r.parent ≠ some new) :
    (l.map (fun r =>
        if r.parent == some old then { r with parent := some new } else r)).filter
      (fun r => r.parent == some new) =
    (l.filter (fun r => r.parent == some old)).map
      (fun r => { r with parent := some new }) := by
  rw [List.filter_map]
  have hpred : l.filter ((fun r => r.parent == some new) ∘ (fun r =>
      if r.parent == some old then { r with parent := some new } else r)) =
      l.filter (fun r => r.parent == some old) := by
    apply List.filter_congr
    intro a ha
    by_cases hp : (a.parent == some old) = true
    · simp [Function.comp, hp]
    · have hnew : a.parent ≠ some new := hfr a ha
      simp [Function.comp, hp, hnew]
  rw [hpred]
  apply List.map_congr_left
  intro a ha
  have hp := (List.mem_filter.mp ha).2
  simp [hp]

theorem filter_old_of_map {l : List Rec} {old new : String} (hne : old ≠ new) :
    (l.map (fun r =>
        if r.parent == some old then { r with parent := some new } else r)).filter
      (fun r => r.parent == some old) = [] := by
  rw [List.filter_map]
  have hpred : l.filter ((fun r => r.parent == some old) ∘ (fun r =>
      if r.parent == some old then { r with parent := some new } else r)) = [] := by
    rw [List.filter_eq_nil_iff]
    intro a ha
    by_cases hp : (a.parent == some old) = true
    · simp [Function.comp, hp, Ne.symm hne]
    · simp [Function.comp, hp]
  rw [hpred, List.map_nil]

/-- C2: renaming an existing record at a non-leaf level rewrites the
`parent` reference of all its direct children to the new name; afterwards
retrieve-by-parent at the child level under the new name returns exactly
those children (with their updated parent field) and under the old name
returns the empty list. -/
theorem rename_updates_children (db : DB) (t tc : Taxon) (old new : String)
    (db' : DB)
    (hchild : childTaxon t = some tc)
    (hold : ∃ r ∈ db.table t, r.chinese = old)
    (hne : old ≠ new)
    (hfresh : ∀ r ∈ db.table tc, r.parent ≠ some new)
    (hkids : (db.table tc).filter (fun r => r.parent == some old) ≠ [])
    (hupd : updateChinese db t old new = .ok db') :
    retrieveDataByParent db' tc (some new) =
      ((db.table tc).filter (fun r => r.parent == some old)).map
        (fun r => { r with parent := some new }) ∧
    retrieveDataByParent db' tc (some old) = [] := by
  have hne' : tc ≠ t := childTaxon_ne_self hchild
  have hnp : tc ≠ Taxon.phylum := childTaxon_ne_phylum hchild
  -- extract the successor state from the update call
  simp only [updateChinese] at hupd
  split at hupd
  · cases hupd
  · have hdb : db' = renameCascade (taxaBelow t)
        (((db.table t).filter (fun r => r.chinese == old)).map
          (fun r => (r.chinese, new)))
        (db.setTable t ((db.table t).map (fun r =>
          if r.chinese == old then { r with chinese := new } else r))) := by
      cases hupd
      rfl
    -- the fired pairs are all (old, new) and there is at least one
    set pairs := ((db.table t).filter (fun r => r.chinese == old)).map
      (fun r => (r.chinese, new)) with hpairs
    have hallp : ∀ q ∈ pairs, q = (old, new) := by
      intro q hq
      obtain ⟨r, hr, rfl⟩ := List.mem_map.mp hq
      have := (List.mem_filter.mp hr).2
      simp only [beq_iff_eq] at this
      rw [this]
    have hnep : pairs ≠ [] := by
      obtain ⟨r, hr, hrc⟩ := hold
      have : r ∈ (db.table t).filter (fun r => r.chinese == old) :=
        List.mem_filter.mpr ⟨hr, by simp [hrc]⟩
      simp only [hpairs, ne_eq, List.map_eq_nil_iff]
      intro hnil
      rw [hnil] at this
      cases this
    -- one cascade step at the child level, identity afterwards
    rw [taxaBelow_eq_cons hchild, renameCascade] at hdb
    rw [table_setTable_ne _ _ hne'] at hdb
    have hmap : (db.table tc).map (fun r =>
        match pairs.find? (fun p => r.parent == some p.1) with
        | some p => { r with parent := some p.2 }
        | none => r) =
        (db.table tc).map (fun r =>
          if r.parent == some old then { r with parent := some new } else r) := by
      apply List.map_congr_left
      intro r _
      rw [find?_const_pairs hnep hallp r]
      by_cases hp : (r.parent == some old) = true
      · simp [hp]
      · simp [hp]
    rw [hmap, renameCascade_id _ _ (by
        intro q hq
        obtain ⟨r, _, rfl⟩ := List.mem_map.mp hq
        rfl)] at hdb
    have htc : db'.table tc = (db.table tc).map (fun r =>
        if r.parent == some old then { r with parent := some new } else r) := by
      rw [hdb, table_setTable_self]
    constructor
    · rw [retrieveDataByParent, if_neg hnp, htc]
      simpa [parentToStr] using filter_new_of_map hne hfresh
    · rw [retrieveDataByParent, if_neg hnp, htc]
      simpa [parentToStr] using filter_old_of_map (l := db.table tc) hne

/-- Witness for C2: renaming the sample genus re-parents both species. -/
theorem rename_updates_children_witness :
    retrieveDataByParent
      ((updateChinese dbChain Taxon.genus "g" "g9").toOption.getD emptyDB)
      Taxon.species (some "g9") =
      ((dbChain.table Taxon.species).filter (fun r => r.parent == some "g")).map
        (fun r => { r with parent := some "g9" }) ∧
    retrieveDataByParent
      ((updateChinese dbChain Taxon.genus "g" "g9").toOption.getD emptyDB)
      Taxon.species (some "g") = [] :=
  rename_updates_children dbChain Taxon.genus Taxon.species "g" "g9"
    ((updateChinese dbChain Taxon.genus "g" "g9").toOption.getD emptyDB)
    (by decide) ⟨gRow, by decide, by decide⟩ (by decide) (by decide) (by decide)
    (by rfl)

/-- Bookkeeping for the delete cascade: the `chinese` names of the rows
the chain of `delete_{taxon}` triggers removes at a queried level. -/
def cascadeKilled : List Taxon → List String → DB → Taxon → List String
  | [], _, _, _ => []
  | tc :: rest, names, db, u =>
      if u = tc then
        ((db.table tc).filter (parentMatches names)).map (fun r => r.chinese)
      else
        cascadeKilled rest
          (((db.table tc).filter (parentMatches names)).map (fun r => r.chinese))
          (db.setTable tc ((db.table tc).filter (fun r => ! parentMatches names r))) u

theorem cascadeList_table_not_mem {l : List Taxon} {u : Taxon}
    (hu : u ∉ l) (names : List String) (db : DB) :
    (cascadeList l names db).table u = db.table u := by
  induction l generalizing names db with
  | nil => rfl
  | cons a rest ih =>
      rw [cascadeList, ih (fun h => hu (List.mem_cons_of_mem _ h)),
        table_setTable_ne _ _ (fun h => hu (by rw [h]; exact List.mem_cons_self _ _))]

theorem killed_gone {l : List Taxon} (hnd : l.Nodup) {db : DB}
    (hU : UniqueNames db) {u : Taxon} (hu : u ∈ l) {names : List String}
    {n : String} (hk : n ∈ cascadeKilled l names db u) :
    ∀ r ∈ (cascadeList l names db).table u, r.chinese ≠ n := by
  induction l generalizing names db with
  | nil => cases hu
  | cons a rest ih =>
      intro r hr hrc
      by_cases hua : u = a
      · subst hua
        rw [cascadeKilled, if_pos rfl] at hk
        obtain ⟨rk, hrkf, hrkc⟩ := List.mem_map.mp hk
        have hrk := List.mem_filter.mp hrkf
        have hanr : u ∉ rest := (List.nodup_cons.mp hnd).1
        rw [cascadeList, cascadeList_table_not_mem hanr, table_setTable_self] at hr
        have hrmem := List.mem_filter.mp hr
        have : r = rk := chinese_inj_of_nodup (uniqueNames_iff.mp hU u)
          r hrmem.1 rk hrk.1 (by rw [hrc, hrkc])
        rw [this] at hrmem
        rw [hrk.2] at hrmem
        simp at hrmem
      · have hur : u ∈ rest := by
          cases List.mem_cons.mp hu with
          | inl h => exact absurd h hua
          | inr h => exact h
        rw [cascadeKilled, if_neg hua] at hk
        rw [cascadeList] at hr
        have hU' : UniqueNames (db.setTable a
            ((db.table a).filter (fun r => ! parentMatches names r))) :=
          uniqueNames_setTable hU a
            (nodup_map_filter _ (uniqueNames_iff.mp hU a))
        exact ih (List.nodup_cons.mp hnd).2 hU' hur hk r hr hrc

theorem step_killed : ∀ (l : List Taxon) (names : List String) (db : DB),
    l.Nodup → chainClosed l = true → ∀ t' tc : Taxon, t' ∈ l →
    childTaxon t' = some tc → ∀ n' : String, n' ∈ cascadeKilled l names db t' →
    ∀ r : Rec, r ∈ db.table tc → r.parent = some n' →
    r.chinese ∈ cascadeKilled l names db tc := by
  intro l
  induction l with
  | nil =>
      intro names db _ _ t' tc ht'
      cases ht'
  | cons a rest ih =>
      intro names db hnd hcc t' tc ht' hchild n' hk r hr hp
      by_cases hta : t' = a
      · subst hta
        rw [cascadeKilled, if_pos rfl] at hk
        obtain ⟨rest', hrest⟩ : ∃ rest', rest = tc :: rest' := by
          cases rest with
          | nil =>
              simp [chainClosed, hchild] at hcc
          | cons b rest' =>
              rw [chainClosed, Bool.and_eq_true] at hcc
              have hb : childTaxon t' = some b := eq_of_beq hcc.1
              rw [hchild] at hb
              exact ⟨rest', by rw [Option.some.inj hb]⟩
        have htca : tc ≠ t' := by
          intro h
          have ha : t' ∉ rest := (List.nodup_cons.mp hnd).1
          rw [hrest] at ha
          exact ha (by rw [← h]; exact List.mem_cons_self _ _)
        rw [cascadeKilled, if_neg htca, hrest, cascadeKilled, if_pos rfl,
          table_setTable_ne _ _ htca]
        refine List.mem_map.mpr ⟨r, List.mem_filter.mpr ⟨hr, ?_⟩, rfl⟩
        rw [parentMatches, hp]
        simpa using hk
      · have htr : t' ∈ rest := by
          cases List.mem_cons.mp ht' with
          | inl h => exact absurd h hta
          | inr h => exact h
        have htcr : tc ∈ rest := chainClosed_closure (chainClosed_tail hcc) htr hchild
        have htca : tc ≠ a := by
          intro h
          exact (List.nodup_cons.mp hnd).1 (h ▸ htcr)
        rw [cascadeKilled, if_neg hta] at hk
        rw [cascadeKilled, if_neg htca]
        exact ih _ _ (List.nodup_cons.mp hnd).2 (chainClosed_tail hcc) t' tc htr
          hchild n' hk r (by rwa [table_setTable_ne _ _ htca]) hp

theorem desc_killed {db : DB} {t : Taxon} {c : String} {t' : Taxon} {n' : String}
    (hdesc : Descendant db t c t' n') :
    (t' = t ∧ n' = c) ∨
      (t' ∈ taxaBelow t ∧
        n' ∈ cascadeKilled (taxaBelow t)
          (((db.table t).filter (fun r => r.chinese == c)).map (fun r => r.chinese))
          (db.setTable t ((db.table t).filter (fun r => ! (r.chinese == c)))) t') := by
  induction hdesc with
  | refl => exact Or.inl ⟨rfl, rfl⟩
  | @step t1 tc n1 r hd hchild hex hr hp ih =>
      rcases ih with ⟨hte, hne⟩ | ⟨hmem, hkill⟩
      · subst hte
        subst hne
        right
        have htcne : tc ≠ t1 := childTaxon_ne_self hchild
        rw [taxaBelow_eq_cons hchild]
        refine ⟨List.mem_cons_self _ _, ?_⟩
        rw [cascadeKilled, if_pos rfl, table_setTable_ne _ _ htcne]
        refine List.mem_map.mpr ⟨r, List.mem_filter.mpr ⟨hr, ?_⟩, rfl⟩
        rw [parentMatches, hp]
        obtain ⟨r0, hr0, hr0c⟩ := hex
        have hmm : n1 ∈ ((db.table t1).filter (fun r => r.chinese == n1)).map
            (fun r => r.chinese) :=
          List.mem_map.mpr ⟨r0, List.mem_filter.mpr ⟨hr0, by simp [hr0c]⟩, hr0c⟩
        simpa using hmm
      · right
        have htcb : tc ∈ taxaBelow t :=
          chainClosed_closure (chainClosed_taxaBelow t) hmem hchild
        refine ⟨htcb, ?_⟩
        have htct : tc ≠ t := fun h => self_not_mem_taxaBelow t (h ▸ htcb)
        exact step_killed (taxaBelow t) _ _ (taxaBelow_nodup t)
          (chainClosed_taxaBelow t) t1 tc hmem hchild n1 hkill r
          (by rwa [table_setTable_ne _ _ htct]) hp

/-- C1: deleting a record deletes, through the chain of `delete_{taxon}`
triggers, the record itself and transitively every descendant record at
every subordinate level: afterwards retrieve-by-taxon at the level of any
lineage member returns no row carrying that member's name (stated for
stores whose tables satisfy the primary-key uniqueness invariant). -/
theorem delete_removes_lineage (db : DB) (t : Taxon) (c : String)
    (t' : Taxon) (n' : String)
    (hU : UniqueNames db) (hdesc : Descendant db t c t' n') :
    (retrieveDataByTaxon (deleteData db t c) t').all
      (fun r => ! (r.chinese == n')) = true := by
  rw [List.all_eq_true]
  intro r hr
  simp only [Bool.not_eq_true', beq_eq_false_iff_ne, ne_eq]
  intro hrc
  rw [retrieveDataByTaxon, deleteData] at hr
  rcases desc_killed hdesc with ⟨hte, hne⟩ | ⟨hmem, hkill⟩
  · subst hte
    subst hne
    rw [cascadeList_table_not_mem (self_not_mem_taxaBelow t'),
      table_setTable_self] at hr
    have := (List.mem_filter.mp hr).2
    rw [hrc] at this
    simp at this
  · have hU0 : UniqueNames (db.setTable t
        ((db.table t).filter (fun r => ! (r.chinese == c)))) :=
      uniqueNames_setTable hU t (nodup_map_filter _ (uniqueNames_iff.mp hU t))
    exact killed_gone (taxaBelow_nodup t) hU0 hmem hkill r hr hrc

/-- The full six-level sample lineage of the sample phylum record. -/
theorem dbChain_lineage : Descendant dbChain Taxon.phylum "p" Taxon.species "s" := by
  have h1 : Descendant dbChain Taxon.phylum "p" Taxon.class_ "c" :=
    Descendant.step (r := cRow) Descendant.refl rfl (by decide) (by decide) rfl
  have h2 : Descendant dbChain Taxon.phylum "p" Taxon.order "o" :=
    Descendant.step (r := oRow) h1 rfl (by decide) (by decide) rfl
  have h3 : Descendant dbChain Taxon.phylum "p" Taxon.family "f" :=
    Descendant.step (r := fRow) h2 rfl (by decide) (by decide) rfl
  have h4 : Descendant dbChain Taxon.phylum "p" Taxon.genus "g" :=
    Descendant.step (r := gRow) h3 rfl (by decide) (by decide) rfl
  exact Descendant.step (r := sRow) h4 rfl (by decide) (by decide) rfl

/-- Witness for C1: deleting the sample phylum leaves no species row named
after its six-level descendant. -/
theorem delete_removes_lineage_witness :
    (retrieveDataByTaxon (deleteData dbChain Taxon.phylum "p") Taxon.species).all
      (fun r => ! (r.chinese == "s")) = true :=
  delete_removes_lineage dbChain Taxon.phylum "p" Taxon.species "s"
    (by decide) dbChain_lineage

theorem taxonOfIdx_idx (t : Taxon) : taxonOfIdx t.idx = t := by
  cases t <;> rfl

theorem idx_pos {t : Taxon} (h : t ≠ Taxon.phylum) : 0 < t.idx := by
  cases t <;> first | exact absurd rfl h | decide

theorem sliceNames_map_some (recs : List Rec) :
    sliceNames (recs.map some) =
      some (recs.map (fun r => (r.chinese, r.scientific))) := by
  induction recs with
  | nil => rfl
  | cons r recs ih => simp [sliceNames, ih]

theorem rdbc_some_find {db : DB} {ct : Taxon} {cc : String} {a : Rec}
    (h : retrieveDataByChild db ct cc = some a) :
    ∃ rc, retrieveDataByChinese db ct cc = some rc := by
  rw [retrieveDataByChild] at h
  cases hf : (db.table ct).find? (fun r => r.chinese == cc) with
  | none => rw [hf] at h; cases h
  | some rc =>
      refine ⟨rc, ?_⟩
      rw [retrieveDataByChinese, hf]

/-- Structure of a successful upward walk: it prepends to the accumulator
exactly `n` records, root first, each of which is the parent-lookup result
of the record one position later (the deepest one being the parent-lookup
of the walk's starting name). -/
theorem walkLoop_sound : ∀ (n : Nat) (cc : String) (acc : List (Option Rec))
    (L : List (Option Rec)) (db : DB),
    walkLoop db n (taxonOfIdx n) cc acc = some L →
    ∃ pre : List Rec, L = pre.map some ++ acc ∧ pre.length = n ∧
      (∀ i : Nat, i + 1 < n →
        ∃ a b, pre[i]? = some a ∧ pre[i + 1]? = some b ∧
          retrieveDataByChild db (taxonOfIdx (i + 1)) b.chinese = some a) ∧
      (0 < n → ∃ a, pre[n - 1]? = some a ∧
        retrieveDataByChild db (taxonOfIdx n) cc = some a) := by
  intro n
  induction n with
  | zero =>
      intro cc acc L db h
      rw [walkLoop] at h
      cases h
      exact ⟨[], rfl, rfl, fun i hi => absurd hi (by omega),
        fun h0 => absurd h0 (by omega)⟩
  | succ n ih =>
      intro cc acc L db h
      rw [walkLoop] at h
      cases hrd : retrieveDataByChild db (taxonOfIdx (n + 1)) cc with
      | none => rw [hrd] at h; cases h
      | some p =>
          rw [hrd] at h
          obtain ⟨pre', hL, hlen, hlinks, hlast⟩ := ih p.chinese (some p :: acc) L db h
          refine ⟨pre' ++ [p], ?_, ?_, ?_, ?_⟩
          · rw [hL, List.map_append]
            simp
          · simp [hlen]
          · intro i hi
            by_cases hin : i + 1 < n
            · obtain ⟨a, b, ha, hb, hab⟩ := hlinks i hin
              refine ⟨a, b, ?_, ?_, hab⟩
              · rw [List.getElem?_append, if_pos (by omega)]
                exact ha
              · rw [List.getElem?_append, if_pos (by omega)]
                exact hb
            · have hieq : i + 1 = n := by omega
              obtain ⟨a, ha, hrdl⟩ := hlast (by omega)
              refine ⟨a, p, ?_, ?_, ?_⟩
              · rw [List.getElem?_append, if_pos (by omega)]
                have hieq2 : i = n - 1 := by omega
                rw [hieq2]
                exact ha
              · rw [List.getElem?_append_right (by omega)]
                simp [hlen, hieq]
              · rw [hieq]
                exact hrdl
          · intro _
            refine ⟨p, ?_, rfl⟩
            rw [List.getElem?_append_right (by omega), hlen]
            simp

/-- C3: a successful ancestry walk from a leaf with `return_child=True`
collects one record per level.  With `names_only=True` the result is the
`(chinese, scientific)` projection of those records; its length is the
leaf's depth (`phylum=1 … species=6`), its last element is the leaf's own
pair, and each earlier element is the parent-lookup result of the record
one position later — the chain runs root first down to the leaf. -/
theorem hier_names_root_to_leaf (db : DB) (ct : Taxon) (cc : String)
    (L : List (Option Rec)) (hct : ct ≠ Taxon.phylum)
    (h : hierFull db ct cc true = some L) :
    ∃ (recs : List Rec) (leaf : Rec),
      L = recs.map some ∧
      recs.length = ct.idx + 1 ∧
      retrieveDataByChinese db ct cc = some leaf ∧
      hierNames db ct cc true =
        some (recs.map (fun r => (r.chinese, r.scientific))) ∧
      (recs.map (fun r => (r.chinese, r.scientific))).getLast? =
        some (leaf.chinese, leaf.scientific) ∧
      (∀ i : Nat, i + 1 < recs.length →
        ∃ a b, recs[i]? = some a ∧ recs[i + 1]? = some b ∧
          retrieveDataByChild db (taxonOfIdx (i + 1)) b.chinese = some a) := by
  have h' : walkLoop db ct.idx (taxonOfIdx ct.idx) cc
      [retrieveDataByChinese db ct cc] = some L := by
    rw [taxonOfIdx_idx]
    simpa [hierFull] using h
  obtain ⟨pre, hL, hlen, hlinks, hlast⟩ := walkLoop_sound ct.idx cc _ L db h'
  have hpos : 0 < ct.idx := idx_pos hct
  obtain ⟨a0, _, hrd0⟩ := hlast hpos
  rw [taxonOfIdx_idx] at hrd0
  obtain ⟨leaf, hleaf⟩ := rdbc_some_find hrd0
  have hleafc : leaf.chinese = cc := by
    rw [retrieveDataByChinese] at hleaf
    have := List.find?_some hleaf
    simpa using this
  have hL2 : L = (pre ++ [leaf]).map some := by
    rw [hL, hleaf, List.map_append]
    simp
  refine ⟨pre ++ [leaf], leaf, hL2, ?_, hleaf, ?_, ?_, ?_⟩
  · simp [hlen]
  · rw [hierNames, h]
    rw [Option.some_bind, hL2, sliceNames_map_some]
  · rw [List.map_append]
    simp
  · intro i hi
    simp only [List.length_append, List.length_cons, List.length_nil, hlen] at hi
    by_cases hin : i + 1 < ct.idx
    · obtain ⟨a, b, ha, hb, hab⟩ := hlinks i hin
      refine ⟨a, b, ?_, ?_, hab⟩
      · rw [List.getElem?_append, if_pos (by omega)]
        exact ha
      · rw [List.getElem?_append, if_pos (by omega)]
        exact hb
    · have hieq : i + 1 = ct.idx := by omega
      obtain ⟨a, ha, hrdl⟩ := hlast hpos
      rw [taxonOfIdx_idx] at hrdl
      refine ⟨a, leaf, ?_, ?_, ?_⟩
      · rw [List.getElem?_append, if_pos (by omega)]
        have hieq2 : i = ct.idx - 1 := by omega
        rw [hieq2]
        exact ha
      · rw [List.getElem?_append_right (by omega), hlen]
        simp [hieq]
      · rw [hieq, taxonOfIdx_idx, hleafc]
        exact hrdl

/-- Witness for C3: the walk from the sample species leaf. -/
theorem hier_names_root_to_leaf_witness :
    ∃ (recs : List Rec) (leaf : Rec),
      [some pRow, some cRow, some oRow, some fRow, some gRow, some sRow] =
        recs.map some ∧
      recs.length = Taxon.species.idx + 1 ∧
      retrieveDataByChinese dbChain Taxon.species "s" = some leaf ∧
      hierNames dbChain Taxon.species "s" true =
        some (recs.map (fun r => (r.chinese, r.scientific))) ∧
      (recs.map (fun r => (r.chinese, r.scientific))).getLast? =
        some (leaf.chinese, leaf.scientific) ∧
      (∀ i : Nat, i + 1 < recs.length →
        ∃ a b, recs[i]? = some a ∧ recs[i + 1]? = some b ∧
          retrieveDataByChild dbChain (taxonOfIdx (i + 1)) b.chinese = some a) :=
  hier_names_root_to_leaf dbChain Taxon.species "s"
    [some pRow, some cRow, some oRow, some fRow, some gRow, some sRow]
    (by decide) (by rfl)

/-- C4: in `taxonomy/taxonomy.py` a step of the upward walk that finds no
resolvable parent (here: the named child is absent from the freshly
initialized empty store) does not yield the empty list — the loop body
subscripts the `None` lookup result and the call raises `TypeError`
(modelled as `none`), whatever the flags; the variant kept in
`TaxonomyDatabase/taxonomy.py`, whose loop checks `if parent is None:
return []`, does return the empty list on the same input, which is the
behavior the specification describes. -/
theorem walk_broken_parent_is_error :
    hierFull emptyDB Taxon.class_ "x" false = none ∧
    hierFull emptyDB Taxon.class_ "x" true = none ∧
    hierNames emptyDB Taxon.class_ "x" true = none ∧
    hierFullTD emptyDB Taxon.class_ "x" false = [] ∧
    hierFullTD emptyDB Taxon.class_ "x" true = [] :=
  ⟨rfl, rfl, rfl, rfl, rfl⟩

end TaxonomyDB

